import Mathlib

/-!
# Verification of the recipe CSV → graph loader (`src/main.rs`)

Shallow embedding of the program in Lean 4:

* the pseudo-list field decoders (`StringArrayVisitor::visit_str` and
  `FloatArrayVisitor::visit_str`) as pure functions on `List Char` / `String`;
* the two graph-store operations (`add_recipe_to_neo4j`, `add_ingredients_to_recipe`)
  as state transformers on an explicit graph-store state, with the Cypher
  `CREATE` / `MERGE` / `MATCH` semantics they invoke spelled out;
* the `main` row loop as a fold over raw rows that aborts on the first
  normalization failure.

Machine floats (`f32`) are modelled as exact rationals: the decoded values the
claims mention (`1.0`, `2.5`, `3.0`, …) are exactly representable, and none of
the claims concern rounding. `Vec<f32>` parsing via Rust's `str::parse` is
modelled by the decimal-literal fragment of that grammar (optional sign,
digits with optional fractional part, optional exponent); the special forms
`inf` / `NaN` are outside every claim considered here.
-/

namespace RecipeParser

/-- The character class `|c| c == '[' || c == ']'` used by both visitors. -/
def isBracket (c : Char) : Bool := c = '[' || c = ']'

/-- The character class `|c| c == '\'' || c == '"'` used by `StringArrayVisitor`. -/
def isQuote (c : Char) : Bool := c = '\'' || c = '"'

/-- Drop matching characters from the end of a list (helper for `trimMatches`). -/
def dropEndWhile (p : Char → Bool) (l : List Char) : List Char :=
  (l.reverse.dropWhile p).reverse

/-- Rust `str::trim_matches(pred)`: repeatedly remove characters satisfying
`pred` from both ends of the string. -/
def trimMatches (p : Char → Bool) (l : List Char) : List Char :=
  dropEndWhile p (l.dropWhile p)

/-- Rust `str::trim()`: remove whitespace from both ends. -/
def trimWs (l : List Char) : List Char :=
  trimMatches (fun c => c.isWhitespace) l

/-- Rust `str::split(',')`: split on every comma, keeping empty parts; always
returns at least one part. -/
def splitOnComma : List Char → List (List Char)
  | [] => [[]]
  | c :: rest =>
    if c = ',' then [] :: splitOnComma rest
    else
      match splitOnComma rest with
      | [] => [[c]]
      | part :: parts => (c :: part) :: parts

/-- Core of `StringArrayVisitor::visit_str`: trim brackets from both ends,
split on commas, and for each part trim whitespace then trim quote characters. -/
def decodeStringCore (value : List Char) : List (List Char) :=
  (splitOnComma (trimMatches isBracket value)).map
    (fun part => trimMatches isQuote (trimWs part))

/-- `StringArrayVisitor::visit_str` (the decoder behind
`deserialize_string_array`), on `String`. -/
def decode_string_sequence (value : String) : List String :=
  (decodeStringCore value.data).map (fun l => String.mk l)

/-- Numeric value of a digit string, most significant digit first
(only meaningful when every character is a digit). -/
def digitsVal (l : List Char) : Nat :=
  l.foldl (fun a c => a * 10 + (c.toNat - ('0').toNat)) 0

/-- The mantissa value `±(intPart.fracPart)` as an exact rational. -/
def mantissaVal (neg : Bool) (ip fp : List Char) : ℚ :=
  let m : ℚ := (digitsVal ip : ℚ) + (digitsVal fp : ℚ) / (10 : ℚ) ^ fp.length
  if neg then -m else m

/-- Parse the optional exponent suffix (`e`/`E`, optional sign, digits) and
apply it to the mantissa; the suffix must consume the rest of the input. -/
def applyExponent (m : ℚ) (rest : List Char) : Option ℚ :=
  match rest with
  | [] => some m
  | e :: r =>
    if e = 'e' || e = 'E' then
      let (eneg, r2) : Bool × List Char :=
        match r with
        | '-' :: rr => (true, rr)
        | '+' :: rr => (false, rr)
        | rr => (false, rr)
      let ed := r2.takeWhile Char.isDigit
      if ed.isEmpty then none
      else if (r2.dropWhile Char.isDigit).isEmpty then
        some (if eneg then m / (10 : ℚ) ^ digitsVal ed else m * (10 : ℚ) ^ digitsVal ed)
      else none
    else none

/-- Rust `str::parse::<f32>()` on the decimal-literal fragment of its grammar:
optional sign, then digits with an optional `.` and fractional digits (at
least one digit overall), then an optional exponent. Values are exact
rationals (see the module comment). -/
def parseFloat (l : List Char) : Option ℚ :=
  let (neg, rest) : Bool × List Char :=
    match l with
    | '-' :: r => (true, r)
    | '+' :: r => (false, r)
    | r => (false, r)
  let ip := rest.takeWhile Char.isDigit
  let rest2 := rest.dropWhile Char.isDigit
  match rest2 with
  | '.' :: r3 =>
    let fp := r3.takeWhile Char.isDigit
    let rest4 := r3.dropWhile Char.isDigit
    if ip.isEmpty && fp.isEmpty then none
    else applyExponent (mantissaVal neg ip fp) rest4
  | _ =>
    if ip.isEmpty then none else applyExponent (mantissaVal neg ip []) rest2

/-- The loop body of `FloatArrayVisitor::visit_str`: parse each trimmed part,
aborting with the error (`none`, Rust's `MalformedNumericField`) on the first
part that fails to parse. -/
def parseParts : List (List Char) → Option (List ℚ)
  | [] => some []
  | p :: ps =>
    match parseFloat (trimWs p) with
    | some v => (parseParts ps).map (fun l => v :: l)
    | none => none

/-- `FloatArrayVisitor::visit_str` (the decoder behind
`deserialize_float_array`): trim brackets, split on commas, parse each trimmed
part as a float; `none` models the `MalformedNumericField` error. -/
def decode_number_sequence (value : String) : Option (List ℚ) :=
  parseParts (splitOnComma (trimMatches isBracket value.data))

/-- Rust `str::parse::<i32>()`: optional sign, at least one digit, value in
the `i32` range. -/
def parseI32 (s : String) : Option Int :=
  let (neg, ds) : Bool × List Char :=
    match s.data with
    | '-' :: r => (true, r)
    | '+' :: r => (false, r)
    | r => (false, r)
  if ds.isEmpty || !ds.all Char.isDigit then none
  else
    let v : Int := if neg then -(digitsVal ds : Int) else (digitsVal ds : Int)
    if -(2 ^ 31) ≤ v ∧ v < 2 ^ 31 then some v else none

/-! ## Reference definitions written from the specification text

These follow the spec's words, to be compared with the source embedding above:
`specDecodeOne` reads "strips one leading and one trailing bracket character
if present … strips one leading/trailing single- or double-quote character"
literally; `specDecodeAll` is the same pipeline with "one" replaced by "all".
-/

/-- Remove one leading character satisfying `p`, if present. -/
def dropOneIf (p : Char → Bool) : List Char → List Char
  | [] => []
  | c :: r => if p c then r else c :: r

/-- Remove one leading and one trailing character satisfying `p`, if present. -/
def stripOnePair (p : Char → Bool) (l : List Char) : List Char :=
  (dropOneIf p (dropOneIf p l).reverse).reverse

/-- Remove every leading character satisfying `p`. -/
def dropAllIf (p : Char → Bool) : List Char → List Char
  | [] => []
  | c :: r => if p c then dropAllIf p r else c :: r

/-- Remove every leading and every trailing character satisfying `p`. -/
def stripAllPair (p : Char → Bool) (l : List Char) : List Char :=
  (dropAllIf p (dropAllIf p l).reverse).reverse

/-- The claim-C2 algorithm read literally: strip one leading and one trailing
bracket character if present, split on commas, trim whitespace, strip one
leading/trailing quote character. -/
def specDecodeOne (value : String) : List String :=
  ((splitOnComma (stripOnePair isBracket value.data)).map
    (fun part => stripOnePair isQuote (trimWs part))).map (fun l => String.mk l)

/-- The same pipeline with every leading/trailing bracket and quote character
stripped (what `trim_matches` actually does). -/
def specDecodeAll (value : String) : List String :=
  ((splitOnComma (stripAllPair isBracket value.data)).map
    (fun part => stripAllPair isQuote (trimWs part))).map (fun l => String.mk l)

/-- The well-formed bracketed-list constructor of claim C5: the text
`[e1, e2, ..., en]`. -/
def joinCommaSpace : List (List Char) → List Char
  | [] => []
  | [e] => e
  | e :: rest => e ++ ',' :: ' ' :: joinCommaSpace rest

/-- The input text `[e1, e2, ..., en]` built from the element list. -/
def mkBracketList (elems : List String) : String :=
  String.mk ('[' :: joinCommaSpace (elems.map (fun e => e.data)) ++ [']'])

/-! ## Basic lemmas about the character-list operations -/

theorem dropAllIf_eq_dropWhile (p : Char → Bool) (l : List Char) :
    dropAllIf p l = l.dropWhile p := by
  induction l with
  | nil => rfl
  | cons c r ih =>
    by_cases h : p c <;> simp [dropAllIf, List.dropWhile_cons, h, ih]

theorem stripAllPair_eq_trimMatches (p : Char → Bool) (l : List Char) :
    stripAllPair p l = trimMatches p l := by
  simp [stripAllPair, trimMatches, dropEndWhile, dropAllIf_eq_dropWhile]

theorem dropWhile_eq_self_of_none (p : Char → Bool) (l : List Char)
    (h : ∀ c ∈ l, p c = false) : l.dropWhile p = l := by
  cases l with
  | nil => rfl
  | cons c r => simp [List.dropWhile_cons, h c (by simp)]

theorem trimMatches_eq_self_of_none (p : Char → Bool) (l : List Char)
    (h : ∀ c ∈ l, p c = false) : trimMatches p l = l := by
  simp [trimMatches, dropEndWhile, dropWhile_eq_self_of_none p l h,
    dropWhile_eq_self_of_none p l.reverse (fun c hc => h c (by simpa using hc))]

theorem mem_of_mem_trimMatches (p : Char → Bool) (l : List Char) (c : Char)
    (h : c ∈ trimMatches p l) : c ∈ l := by
  simp only [trimMatches, dropEndWhile, List.mem_reverse] at h
  have h1 := (List.dropWhile_sublist (l := (l.dropWhile p).reverse) (p := p)).mem h
  have h2 := (List.dropWhile_sublist (l := l) (p := p)).mem (by simpa using h1)
  exact h2

theorem splitOnComma_ne_nil (l : List Char) : splitOnComma l ≠ [] := by
  induction l with
  | nil => simp [splitOnComma]
  | cons c r ih =>
    by_cases h : c = ','
    · simp [splitOnComma, h]
    · simp only [splitOnComma, if_neg h]
      cases hs : splitOnComma r <;> simp

theorem splitOnComma_of_no_comma (l : List Char) (h : ∀ c ∈ l, c ≠ ',') :
    splitOnComma l = [l] := by
  induction l with
  | nil => rfl
  | cons c r ih =>
    have hc : c ≠ ',' := h c (by simp)
    have hr := ih (fun x hx => h x (by simp [hx]))
    simp [splitOnComma, hc, hr]

theorem splitOnComma_append_comma (l1 l2 : List Char) (h : ∀ c ∈ l1, c ≠ ',') :
    splitOnComma (l1 ++ ',' :: l2) = l1 :: splitOnComma l2 := by
  induction l1 with
  | nil => simp [splitOnComma]
  | cons c r ih =>
    have hc : c ≠ ',' := h c (by simp)
    have hr := ih (fun x hx => h x (by simp [hx]))
    simp [splitOnComma, hc, hr]

theorem joinCommaSpace_cons_cons (a b : List Char) (r : List (List Char)) :
    joinCommaSpace (a :: b :: r) = a ++ ',' :: ' ' :: joinCommaSpace (b :: r) := rfl

theorem cons_space_joinCommaSpace (b : List Char) (r : List (List Char)) :
    ' ' :: joinCommaSpace (b :: r) = joinCommaSpace ((' ' :: b) :: r) := by
  cases r with
  | nil => rfl
  | cons x xs => simp [joinCommaSpace_cons_cons]

theorem mem_joinCommaSpace (L : List (List Char)) (c : Char)
    (h : c ∈ joinCommaSpace L) : (∃ e ∈ L, c ∈ e) ∨ c = ',' ∨ c = ' ' := by
  induction L with
  | nil => simp [joinCommaSpace] at h
  | cons e rest ih =>
    cases rest with
    | nil => exact Or.inl ⟨e, by simp, by simpa [joinCommaSpace] using h⟩
    | cons b r =>
      rw [joinCommaSpace_cons_cons] at h
      simp only [List.mem_append, List.mem_cons] at h
      rcases h with h1 | h1 | h1 | h1
      · exact Or.inl ⟨e, by simp, h1⟩
      · exact Or.inr (Or.inl h1)
      · exact Or.inr (Or.inr h1)
      · rcases ih h1 with ⟨x, hx, hcx⟩ | h2
        · exact Or.inl ⟨x, by simp [hx], hcx⟩
        · exact Or.inr h2

theorem splitOnComma_joinCommaSpace (e : List Char) (rest : List (List Char))
    (he : ∀ c ∈ e, c ≠ ',') (hrest : ∀ x ∈ rest, ∀ c ∈ x, c ≠ ',') :
    splitOnComma (joinCommaSpace (e :: rest)) =
      e :: rest.map (fun x => ' ' :: x) := by
  induction rest generalizing e with
  | nil => simpa [joinCommaSpace] using splitOnComma_of_no_comma e he
  | cons b r ih =>
    rw [joinCommaSpace_cons_cons, splitOnComma_append_comma _ _ he,
      cons_space_joinCommaSpace]
    have hb : ∀ c ∈ ' ' :: b, c ≠ ',' := by
      intro c hc
      simp only [List.mem_cons] at hc
      rcases hc with rfl | hc
      · decide
      · exact hrest b (by simp) c hc
    rw [ih (' ' :: b) hb (fun x hx => hrest x (by simp [hx]))]
    simp

theorem trimMatches_bracket_wrap (js : List Char)
    (h : ∀ c ∈ js, isBracket c = false) :
    trimMatches isBracket ('[' :: js ++ [']']) = js := by
  have hlb : isBracket '[' = true := rfl
  have hrb : isBracket ']' = true := rfl
  cases js with
  | nil =>
    simp only [trimMatches, List.cons_append, List.nil_append,
      List.dropWhile_cons, hlb, hrb, if_true, List.dropWhile_nil]
    rfl
  | cons c cs =>
    have hc : isBracket c = false := h c (by simp)
    have h2 : trimMatches isBracket ('[' :: (c :: cs) ++ [']']) =
        dropEndWhile isBracket (c :: (cs ++ [']'])) := by
      have he : ('[' :: (c :: cs) ++ [']']) = '[' :: (c :: (cs ++ [']'])) := by
        simp
      rw [trimMatches, he, List.dropWhile_cons, hlb]
      simp only [if_true]
      rw [List.dropWhile_cons, hc]
      simp
    rw [h2, dropEndWhile]
    have h3 : (c :: (cs ++ [']'])).reverse = ']' :: (c :: cs).reverse := by simp
    rw [h3, List.dropWhile_cons, hrb]
    simp only [if_true]
    rw [dropWhile_eq_self_of_none isBracket (c :: cs).reverse
      (fun x hx => h x (by simp only [List.mem_reverse] at hx; exact hx))]
    simp

theorem trimWs_cons_space (l : List Char) : trimWs (' ' :: l) = trimWs l := by
  have hsp : (' ').isWhitespace = true := rfl
  simp [trimWs, trimMatches, List.dropWhile_cons, hsp]

theorem trimMatches_isQuote_trimWs (l : List Char)
    (h : ∀ c ∈ l, isQuote c = false) :
    trimMatches isQuote (trimWs l) = trimWs l :=
  trimMatches_eq_self_of_none _ _
    (fun c hc => h c (mem_of_mem_trimMatches _ _ _ hc))

/-! ## Claims about the string-sequence decoder -/

/-- C2 (counterexample): the claimed algorithm strips only ONE leading and ONE
trailing bracket (and quote) character, but `trim_matches` strips ALL of them:
on `[["x"]]` (with doubled double-quotes) the code returns `["x"]` while the
claimed algorithm returns the part with inner brackets and quotes intact. -/
theorem decode_string_one_strip_cex :
    decode_string_sequence "[[\"\"x\"\"]]" = ["x"] ∧
    specDecodeOne "[[\"\"x\"\"]]" = ["[\"\"x\"\"]"] ∧
    decode_string_sequence "[[\"\"x\"\"]]" ≠ specDecodeOne "[[\"\"x\"\"]]" := by
  decide

/-- C2 (amended): for every input string, `decode_string_sequence` strips ALL
leading and trailing bracket characters, splits the remainder on commas, for
each part trims surrounding whitespace and then strips ALL leading/trailing
single- or double-quote characters, and returns the resulting strings in split
order, including empty strings (no filtering). -/
theorem decode_string_algorithm (value : String) :
    decode_string_sequence value = specDecodeAll value := by
  simp [decode_string_sequence, decodeStringCore, specDecodeAll,
    stripAllPair_eq_trimMatches]

/-- C5 (counterexample): the element `"]"` contains no comma and no quote
character, yet decoding the bracketed list built from it does not return that
element: the closing bracket of the element is consumed by the bracket trim. -/
theorem decode_bracket_list_cex :
    (∀ c ∈ ("]" : String).data, ¬c = ',' ∧ isQuote c = false) ∧
    mkBracketList ["]"] = "[]]" ∧
    decode_string_sequence (mkBracketList ["]"]) = [""] ∧
    decode_string_sequence (mkBracketList ["]"]) ≠
      [("]" : String)].map (fun e => String.mk (trimWs e.data)) := by
  decide

/-- C5 (amended): for every nonempty list of elements containing no commas, no
quote characters and no bracket characters, decoding the bracketed-list text
`[e1, e2, ..., en]` returns exactly the elements with surrounding whitespace
removed (quote removal is vacuous for quote-free elements). -/
theorem decode_bracket_list_simple (elems : List String) (h1 : elems ≠ [])
    (h2 : ∀ e ∈ elems, ∀ c ∈ e.data,
      ¬c = ',' ∧ isQuote c = false ∧ isBracket c = false) :
    decode_string_sequence (mkBracketList elems) =
      elems.map (fun e => String.mk (trimWs e.data)) := by
  cases elems with
  | nil => exact absurd rfl h1
  | cons e0 rest =>
    have hdata : (mkBracketList (e0 :: rest)).data =
        '[' :: joinCommaSpace ((e0 :: rest).map (fun e => e.data)) ++ [']'] := rfl
    have hjoin : ∀ c ∈ joinCommaSpace ((e0 :: rest).map (fun e => e.data)),
        isBracket c = false := by
      intro c hc
      rcases mem_joinCommaSpace _ _ hc with ⟨x, hx, hcx⟩ | hc2 | hc2
      · obtain ⟨e, he, rfl⟩ := List.mem_map.mp hx
        exact (h2 e he c hcx).2.2
      · subst hc2; rfl
      · subst hc2; rfl
    unfold decode_string_sequence decodeStringCore
    rw [hdata, trimMatches_bracket_wrap _ hjoin]
    have hmap : (e0 :: rest).map (fun e => e.data) =
        e0.data :: rest.map (fun e => e.data) := rfl
    rw [hmap, splitOnComma_joinCommaSpace _ _
      (fun c hc => (h2 e0 (by simp) c hc).1)
      (by intro x hx c hc
          obtain ⟨e, he, rfl⟩ := List.mem_map.mp hx
          exact (h2 e (by simp [he]) c hc).1)]
    simp only [List.map_cons, List.map_map]
    rw [trimMatches_isQuote_trimWs e0.data
      (fun c hc => (h2 e0 (by simp) c hc).2.1)]
    refine congrArg (fun t => String.mk (trimWs e0.data) :: t) ?_
    refine List.map_congr_left ?_
    intro e he
    simp only [Function.comp]
    rw [trimWs_cons_space,
      trimMatches_isQuote_trimWs e.data
        (fun c hc => (h2 e (by simp [he]) c hc).2.1)]

/-- Witness for `decode_bracket_list_simple` at a concrete element list. -/
theorem decode_bracket_list_simple_witness :
    decode_string_sequence (mkBracketList ["salt", " pepper"]) =
      ["salt", "pepper"] := by
  rw [decode_bracket_list_simple ["salt", " pepper"] (by decide) (by decide)]
  decide

/-- C7: decoding the text `[]` yields a single-element sequence containing
exactly one empty string (the empty-list form is not special-cased). -/
theorem decode_empty_brackets :
    decode_string_sequence "[]" = [""] := by decide

/-- C8: `decode_string_sequence` is total (a plain function in this model) and
always returns at least one element, for every input string. -/
theorem decode_string_total (value : String) :
    1 ≤ (decode_string_sequence value).length := by
  have h := splitOnComma_ne_nil (trimMatches isBracket value.data)
  simp only [decode_string_sequence, decodeStringCore, List.length_map]
  cases hs : splitOnComma (trimMatches isBracket value.data) with
  | nil => exact absurd hs h
  | cons a l => simp

/-! ## Claim about the numeric-sequence decoder -/

theorem parseParts_eq_mapM (ps : List (List Char)) :
    parseParts ps = ps.mapM (fun p => parseFloat (trimWs p)) := by
  induction ps with
  | nil => rfl
  | cons p ps ih =>
    rw [List.mapM_cons, ← ih]
    cases hp : parseFloat (trimWs p) with
    | none => simp [parseParts, hp]
    | some v =>
      simp only [parseParts, hp]
      cases parseParts ps <;> rfl

theorem parseParts_eq_none_iff (ps : List (List Char)) :
    parseParts ps = none ↔ ∃ p ∈ ps, parseFloat (trimWs p) = none := by
  induction ps with
  | nil => simp [parseParts]
  | cons p ps ih =>
    cases hp : parseFloat (trimWs p) with
    | none => simp [parseParts, hp]
    | some v => simp [parseParts, hp, ih]

/-- C6: `decode_number_sequence` fails (the `MalformedNumericField` error,
modelled by `none`) iff some trimmed comma-separated part of the
bracket-stripped input does not parse as a decimal number; otherwise it
returns the parsed numbers in split order, as witnessed by the two spec
examples. -/
theorem decode_number_spec :
    (∀ value : String,
      (decode_number_sequence value = none ↔
        ∃ part ∈ splitOnComma (trimMatches isBracket value.data),
          parseFloat (trimWs part) = none) ∧
      decode_number_sequence value =
        (splitOnComma (trimMatches isBracket value.data)).mapM
          (fun part => parseFloat (trimWs part))) ∧
    decode_number_sequence "[1.0, 2.5, 3]" = some [1, 5/2, 3] ∧
    decode_number_sequence "[1.0, x, 3]" = none := by
  refine ⟨fun value => ⟨parseParts_eq_none_iff _, parseParts_eq_mapM _⟩, ?_, ?_⟩
  · simp [show "[1.0, 2.5, 3]".data =
        ['[', '1', '.', '0', ',', ' ', '2', '.', '5', ',', ' ', '3', ']'] from rfl,
      decode_number_sequence, trimMatches, dropEndWhile, isBracket, splitOnComma,
      parseParts, trimWs, parseFloat, applyExponent, mantissaVal, digitsVal]
    norm_num
  · simp [show "[1.0, x, 3]".data =
        ['[', '1', '.', '0', ',', ' ', 'x', ',', ' ', '3', ']'] from rfl,
      decode_number_sequence, trimMatches, dropEndWhile, isBracket, splitOnComma,
      parseParts, trimWs, parseFloat, applyExponent, mantissaVal, digitsVal]

/-! ## Graph-store model

The store state holds the three kinds of entities the program creates.
Recipe nodes are a list (a multiset: Cypher `CREATE` makes a fresh node on
every call, so node identity is the position in creation order); Ingredient
nodes are identified by their `name` key, which is exactly how the program's
`MERGE (i:Ingredient {name: $name})` deduplicates them; a `CONTAINS` edge is
a pair of a recipe-node index and an ingredient name, as created by
`MATCH (r:Recipe {id: $recipe_id}), (i:Ingredient {name: $ingredient_name})
MERGE (r)-[:CONTAINS]->(i)` (one edge per matched pair, created only if
absent). -/

/-- A property value bound as a query parameter. -/
inductive PropValue where
  | int (i : Int)
  | str (s : String)
  | strList (l : List String)
  | numList (l : List ℚ)
deriving DecidableEq

/-- The property map of a stored node. -/
abbrev NodeProps := List (String × PropValue)

/-- The `Recipe` struct of the program (after serde normalization). -/
structure Recipe where
  id : Int
  name : String
  description : String
  ingredients : List String
  minutes : Int
  steps : List String
  nutrition : List ℚ
deriving DecidableEq

/-- The graph-store state. -/
structure GraphState where
  recipes : List NodeProps
  ingredients : List String
  edges : List (Nat × String)
deriving DecidableEq

/-- The store before any run. -/
def emptyGraph : GraphState := ⟨[], [], []⟩

/-- The property map bound by the `CREATE (r:Recipe {id: $id, name: $name,
description: $description, minutes: $minutes, nutrition: $nutrition,
steps: $steps})` query of `add_recipe_to_neo4j`. -/
def recipeProps (r : Recipe) : NodeProps :=
  [("id", .int r.id), ("name", .str r.name),
   ("description", .str r.description), ("minutes", .int r.minutes),
   ("nutrition", .numList r.nutrition), ("steps", .strList r.steps)]

/-- `add_recipe_to_neo4j`: an unconditional `CREATE` of one Recipe node. -/
def add_recipe_to_neo4j (st : GraphState) (r : Recipe) : GraphState :=
  { st with recipes := st.recipes ++ [recipeProps r] }

/-- The recipe-node indices matched by `MATCH (r:Recipe {id: $recipe_id})`. -/
def matchRecipeIdxs (recipes : List NodeProps) (rid : Int) : List Nat :=
  (List.range recipes.length).filter
    (fun i => (recipes.getD i []).lookup "id" = some (.int rid))

/-- `MERGE (i:Ingredient {name: $name})`: create the node only if absent. -/
def mergeIngredient (st : GraphState) (name : String) : GraphState :=
  if name ∈ st.ingredients then st
  else { st with ingredients := st.ingredients ++ [name] }

/-- `MATCH (r:Recipe {id: $recipe_id}), (i:Ingredient {name:
$ingredient_name}) MERGE (r)-[:CONTAINS]->(i)`: for every matched pair,
create the edge only if absent (no pair matches when the ingredient node is
missing). -/
def mergeContains (st : GraphState) (rid : Int) (name : String) : GraphState :=
  if name ∈ st.ingredients then
    { st with
      edges := st.edges ++ (matchRecipeIdxs st.recipes rid).filterMap
        (fun i => if (i, name) ∈ st.edges then none else some (i, name)) }
  else st

/-- One iteration of the loop in `add_ingredients_to_recipe`. -/
def attachStep (rid : Int) (st : GraphState) (name : String) : GraphState :=
  mergeContains (mergeIngredient st name) rid name

/-- `add_ingredients_to_recipe`: the per-recipe ingredient loop. -/
def add_ingredients_to_recipe (st : GraphState) (rid : Int)
    (ingredients : List String) : GraphState :=
  ingredients.foldl (attachStep rid) st

/-! ## Driver (`main`) -/

/-- One raw CSV row (fields as text, keyed by header). -/
structure RawRow where
  id : String
  name : String
  description : String
  ingredients : String
  minutes : String
  steps : String
  nutrition : String
deriving DecidableEq

/-- Serde deserialization of a row into a `Recipe`: scalar fields via the
standard parsers, the pseudo-list fields via the custom visitors. `none`
models the `MalformedRow` / `MalformedNumericField` errors. -/
def normalizeRow (row : RawRow) : Option Recipe :=
  match parseI32 row.id, parseI32 row.minutes,
      decode_number_sequence row.nutrition with
  | some i, some m, some nut =>
    some { id := i, name := row.name, description := row.description,
           ingredients := decode_string_sequence row.ingredients,
           minutes := m, steps := decode_string_sequence row.steps,
           nutrition := nut }
  | _, _, _ => none

/-- The per-row body of `main`: create the recipe node, then attach its
ingredients. -/
def processRecipe (st : GraphState) (r : Recipe) : GraphState :=
  add_ingredients_to_recipe (add_recipe_to_neo4j st r) r.id r.ingredients

/-- The row loop of `main`: normalize each row and load it; on the first row
that fails to normalize, abort (the `Bool` is `false`) without touching the
store for that row or any later row. -/
def runLoad : GraphState → List RawRow → GraphState × Bool
  | st, [] => (st, true)
  | st, row :: rest =>
    match normalizeRow row with
    | none => (st, false)
    | some r => runLoad (processRecipe st r) rest

/-! ## Lemmas about the ingredient-attachment loop -/

theorem mergeIngredient_recipes (st : GraphState) (n : String) :
    (mergeIngredient st n).recipes = st.recipes := by
  unfold mergeIngredient; split <;> rfl

theorem mergeIngredient_edges (st : GraphState) (n : String) :
    (mergeIngredient st n).edges = st.edges := by
  unfold mergeIngredient; split <;> rfl

theorem mergeIngredient_mem (st : GraphState) (n m : String) :
    m ∈ (mergeIngredient st n).ingredients ↔ m ∈ st.ingredients ∨ m = n := by
  unfold mergeIngredient
  split
  · case isTrue h =>
      constructor
      · exact fun hm => Or.inl hm
      · rintro (hm | rfl)
        · exact hm
        · exact h
  · simp

theorem mergeContains_recipes (st : GraphState) (rid : Int) (n : String) :
    (mergeContains st rid n).recipes = st.recipes := by
  unfold mergeContains; split <;> rfl

theorem mergeContains_ingredients (st : GraphState) (rid : Int) (n : String) :
    (mergeContains st rid n).ingredients = st.ingredients := by
  unfold mergeContains; split <;> rfl

theorem mergeContains_edges_mem (st : GraphState) (rid : Int) (n : String)
    (e : Nat × String) :
    e ∈ (mergeContains st rid n).edges ↔
      e ∈ st.edges ∨
        (n ∈ st.ingredients ∧ e.1 ∈ matchRecipeIdxs st.recipes rid ∧
          e.2 = n) := by
  unfold mergeContains
  split
  · case isTrue h =>
      simp only [List.mem_append, List.mem_filterMap]
      constructor
      · rintro (he | ⟨i, hi, hf⟩)
        · exact Or.inl he
        · by_cases hie : (i, n) ∈ st.edges
          · rw [if_pos hie] at hf; exact absurd hf (by simp)
          · rw [if_neg hie] at hf
            obtain rfl := Option.some.inj hf
            exact Or.inr ⟨h, hi, rfl⟩
      · rintro (he | ⟨_, hi, hn⟩)
        · exact Or.inl he
        · by_cases hie : e ∈ st.edges
          · exact Or.inl hie
          · refine Or.inr ⟨e.1, hi, ?_⟩
            have he2 : e = (e.1, n) := by
              cases e; simp only at hn; rw [hn]
            rw [← he2, if_neg hie]
  · case isFalse h =>
      simp [h]

theorem attachStep_recipes (rid : Int) (st : GraphState) (n : String) :
    (attachStep rid st n).recipes = st.recipes := by
  unfold attachStep
  rw [mergeContains_recipes, mergeIngredient_recipes]

theorem attachStep_ingredients_mem (rid : Int) (st : GraphState)
    (n m : String) :
    m ∈ (attachStep rid st n).ingredients ↔
      m ∈ st.ingredients ∨ m = n := by
  unfold attachStep
  rw [mergeContains_ingredients, mergeIngredient_mem]

theorem attachStep_edges_mem (rid : Int) (st : GraphState) (n : String)
    (e : Nat × String) :
    e ∈ (attachStep rid st n).edges ↔
      e ∈ st.edges ∨ (e.1 ∈ matchRecipeIdxs st.recipes rid ∧ e.2 = n) := by
  unfold attachStep
  rw [mergeContains_edges_mem, mergeIngredient_edges, mergeIngredient_recipes]
  have hn : n ∈ (mergeIngredient st n).ingredients :=
    (mergeIngredient_mem st n n).mpr (Or.inr rfl)
  simp [hn]

theorem attach_recipes (rid : Int) (names : List String) (st : GraphState) :
    (add_ingredients_to_recipe st rid names).recipes = st.recipes := by
  induction names generalizing st with
  | nil => rfl
  | cons a names ih =>
    show (add_ingredients_to_recipe (attachStep rid st a) rid names).recipes = _
    rw [ih, attachStep_recipes]

theorem attach_ingredients_mem (rid : Int) (names : List String)
    (st : GraphState) (n : String) :
    n ∈ (add_ingredients_to_recipe st rid names).ingredients ↔
      n ∈ st.ingredients ∨ n ∈ names := by
  induction names generalizing st with
  | nil => simp [add_ingredients_to_recipe]
  | cons a names ih =>
    show n ∈ (add_ingredients_to_recipe (attachStep rid st a) rid
      names).ingredients ↔ _
    rw [ih, attachStep_ingredients_mem]
    simp only [List.mem_cons]
    tauto

theorem attach_edges_mem (rid : Int) (names : List String) (st : GraphState)
    (e : Nat × String) :
    e ∈ (add_ingredients_to_recipe st rid names).edges ↔
      e ∈ st.edges ∨
        (e.1 ∈ matchRecipeIdxs st.recipes rid ∧ e.2 ∈ names) := by
  induction names generalizing st with
  | nil => simp [add_ingredients_to_recipe]
  | cons a names ih =>
    show e ∈ (add_ingredients_to_recipe (attachStep rid st a) rid
      names).edges ↔ _
    rw [ih, attachStep_edges_mem, attachStep_recipes]
    simp only [List.mem_cons]
    tauto

theorem attachStep_eq_self (rid : Int) (st : GraphState) (n : String)
    (h1 : n ∈ st.ingredients)
    (h2 : ∀ i ∈ matchRecipeIdxs st.recipes rid, (i, n) ∈ st.edges) :
    attachStep rid st n = st := by
  unfold attachStep
  have hmi : mergeIngredient st n = st := by
    unfold mergeIngredient; rw [if_pos h1]
  rw [hmi]
  unfold mergeContains
  rw [if_pos h1]
  have hfm : (matchRecipeIdxs st.recipes rid).filterMap
      (fun i => if (i, n) ∈ st.edges then none else some (i, n)) = [] := by
    rw [List.filterMap_eq_nil_iff]
    intro i hi
    rw [if_pos (h2 i hi)]
  rw [hfm, List.append_nil]

theorem attach_eq_self (rid : Int) (names : List String) (st : GraphState)
    (h : ∀ n ∈ names, n ∈ st.ingredients ∧
      ∀ i ∈ matchRecipeIdxs st.recipes rid, (i, n) ∈ st.edges) :
    add_ingredients_to_recipe st rid names = st := by
  induction names with
  | nil => rfl
  | cons a names ih =>
    have ha := h a (by simp)
    show add_ingredients_to_recipe (attachStep rid st a) rid names = st
    rw [attachStep_eq_self rid st a ha.1 ha.2]
    exact ih (fun n hn => h n (by simp [hn]))

theorem add_ingredients_idem (st : GraphState) (rid : Int)
    (names : List String) :
    add_ingredients_to_recipe (add_ingredients_to_recipe st rid names) rid
        names = add_ingredients_to_recipe st rid names := by
  apply attach_eq_self
  intro n hn
  constructor
  · rw [attach_ingredients_mem]; exact Or.inr hn
  · intro i hi
    rw [attach_recipes] at hi
    rw [attach_edges_mem]
    exact Or.inr ⟨hi, hn⟩

theorem attach_ingredients_nodup (rid : Int) (names : List String)
    (st : GraphState) (h : st.ingredients.Nodup) :
    (add_ingredients_to_recipe st rid names).ingredients.Nodup := by
  induction names generalizing st with
  | nil => exact h
  | cons a names ih =>
    refine ih _ ?_
    show (attachStep rid st a).ingredients.Nodup
    unfold attachStep
    rw [mergeContains_ingredients]
    unfold mergeIngredient
    split
    · exact h
    · case isFalse hna =>
        rw [List.nodup_append]
        exact ⟨h, List.nodup_singleton a,
          fun x hx hxa => hna (by simpa [List.mem_singleton.mp hxa] using hx)⟩

theorem matchRecipeIdxs_nodup (recipes : List NodeProps) (rid : Int) :
    (matchRecipeIdxs recipes rid).Nodup :=
  (List.nodup_range _).filter _

theorem mergeContains_edges_nodup (st : GraphState) (rid : Int) (n : String)
    (h : st.edges.Nodup) : (mergeContains st rid n).edges.Nodup := by
  unfold mergeContains
  split
  · rw [List.nodup_append]
    refine ⟨h, ?_, ?_⟩
    · refine List.Nodup.filterMap ?_ (matchRecipeIdxs_nodup _ _)
      intro i j e hei hej
      by_cases hi : (i, n) ∈ st.edges
      · rw [if_pos hi] at hei; exact absurd hei (by simp)
      · rw [if_neg hi] at hei
        by_cases hj : (j, n) ∈ st.edges
        · rw [if_pos hj] at hej; exact absurd hej (by simp)
        · rw [if_neg hj] at hej
          obtain rfl := Option.some.inj (Option.mem_def.mp hei)
          obtain he := Option.some.inj (Option.mem_def.mp hej)
          exact ((Prod.mk.injEq _ _ _ _).mp he).1.symm
    · intro e he hef
      obtain ⟨i, _, hf⟩ := List.mem_filterMap.mp hef
      by_cases hi : (i, n) ∈ st.edges
      · rw [if_pos hi] at hf; exact absurd hf (by simp)
      · rw [if_neg hi] at hf
        obtain rfl := Option.some.inj hf
        exact hi he
  · exact h

theorem attach_edges_nodup (rid : Int) (names : List String)
    (st : GraphState) (h : st.edges.Nodup) :
    (add_ingredients_to_recipe st rid names).edges.Nodup := by
  induction names generalizing st with
  | nil => exact h
  | cons a names ih =>
    refine ih _ ?_
    show (attachStep rid st a).edges.Nodup
    unfold attachStep
    exact mergeContains_edges_nodup _ _ _
      (by rw [mergeIngredient_edges]; exact h)

theorem matchRecipeIdxs_single (r : Recipe) :
    matchRecipeIdxs [recipeProps r] r.id = [0] := by
  unfold matchRecipeIdxs recipeProps
  simp [List.range_succ, List.lookup]

/-! ## Claims about the graph loader -/

theorem count_of_nodup {α : Type} [BEq α] [LawfulBEq α] (l : List α)
    (h : l.Nodup) (a : α) : l.count a = if a ∈ l then 1 else 0 := by
  induction l with
  | nil => simp
  | cons b l ih =>
    rw [List.count_cons, ih (List.Nodup.of_cons h)]
    by_cases hab : a = b
    · subst hab
      have hmem : a ∉ l := (List.nodup_cons.mp h).1
      simp [hmem]
    · have hbeq : (a == b) = false := beq_false_of_ne hab
      have hba : ¬b = a := fun h => hab h.symm
      simp [hbeq, hab, hba, List.mem_cons]

/-- C3: for every recipe record and ingredient-name list, attaching the list
twice to a store that is empty except for the recipe node leaves exactly one
Ingredient node per distinct name and exactly one `CONTAINS` edge from the
recipe node (index `0`) to each — never duplicates — and the second call is
the identity (idempotence). -/
theorem attach_ingredients_idempotent (r : Recipe) (names : List String) :
    add_ingredients_to_recipe
        (add_ingredients_to_recipe (add_recipe_to_neo4j emptyGraph r) r.id
          names) r.id names =
      add_ingredients_to_recipe (add_recipe_to_neo4j emptyGraph r) r.id
        names ∧
    (∀ n : String,
      (add_ingredients_to_recipe
        (add_ingredients_to_recipe (add_recipe_to_neo4j emptyGraph r) r.id
          names) r.id names).ingredients.count n =
        if n ∈ names then 1 else 0) ∧
    (∀ e : Nat × String,
      (add_ingredients_to_recipe
        (add_ingredients_to_recipe (add_recipe_to_neo4j emptyGraph r) r.id
          names) r.id names).edges.count e =
        if e.1 = 0 ∧ e.2 ∈ names then 1 else 0) := by
  have hing0 : (add_recipe_to_neo4j emptyGraph r).ingredients = [] := rfl
  have hedg0 : (add_recipe_to_neo4j emptyGraph r).edges = [] := rfl
  have hrec0 : (add_recipe_to_neo4j emptyGraph r).recipes =
    [recipeProps r] := rfl
  refine ⟨add_ingredients_idem _ _ _, ?_, ?_⟩
  · intro n
    have hmem : n ∈ (add_ingredients_to_recipe
        (add_ingredients_to_recipe (add_recipe_to_neo4j emptyGraph r) r.id
          names) r.id names).ingredients ↔ n ∈ names := by
      rw [attach_ingredients_mem, attach_ingredients_mem, hing0]
      simp
    have hnd := attach_ingredients_nodup r.id names _
      (attach_ingredients_nodup r.id names (add_recipe_to_neo4j emptyGraph r)
        (by rw [hing0]; exact List.nodup_nil))
    rw [count_of_nodup _ hnd n, if_congr hmem rfl rfl]
  · intro e
    have hmem : e ∈ (add_ingredients_to_recipe
        (add_ingredients_to_recipe (add_recipe_to_neo4j emptyGraph r) r.id
          names) r.id names).edges ↔ e.1 = 0 ∧ e.2 ∈ names := by
      rw [attach_edges_mem, attach_recipes, attach_edges_mem, hedg0, hrec0,
        matchRecipeIdxs_single]
      simp only [List.not_mem_nil, false_or, List.mem_singleton]
      tauto
    have hnd := attach_edges_nodup r.id names _
      (attach_edges_nodup r.id names (add_recipe_to_neo4j emptyGraph r)
        (by rw [hedg0]; exact List.nodup_nil))
    rw [count_of_nodup _ hnd e, if_congr hmem rfl rfl]

/-- C4: `add_recipe_to_neo4j` is an unconditional `CREATE` with no existence
check: calling it twice with the same record adds two distinct Recipe nodes
to any store (the model has no uniqueness constraint). -/
theorem create_recipe_not_idempotent (st : GraphState) (r : Recipe) :
    (add_recipe_to_neo4j (add_recipe_to_neo4j st r) r).recipes.length =
      st.recipes.length + 2 ∧
    (add_recipe_to_neo4j (add_recipe_to_neo4j st r) r).recipes.count
      (recipeProps r) = st.recipes.count (recipeProps r) + 2 := by
  unfold add_recipe_to_neo4j
  constructor
  · simp
  · simp only [List.count_append]
    have h1 : List.count (recipeProps r) [recipeProps r] = 1 := by simp
    rw [h1]

/-- C1 (amended): `add_recipe_to_neo4j` appends one Recipe node whose
attributes are exactly `id`, `name`, `description`, `minutes`, `nutrition`
and `steps`, each bound verbatim from the record; the `ingredients` field is
NOT stored as a node attribute (it is represented only via `CONTAINS`
edges). -/
theorem recipe_node_attrs (st : GraphState) (r : Recipe) :
    (add_recipe_to_neo4j st r).recipes = st.recipes ++ [recipeProps r] ∧
    (recipeProps r).map Prod.fst =
      ["id", "name", "description", "minutes", "nutrition", "steps"] ∧
    (recipeProps r).lookup "id" = some (.int r.id) ∧
    (recipeProps r).lookup "name" = some (.str r.name) ∧
    (recipeProps r).lookup "description" = some (.str r.description) ∧
    (recipeProps r).lookup "minutes" = some (.int r.minutes) ∧
    (recipeProps r).lookup "nutrition" = some (.numList r.nutrition) ∧
    (recipeProps r).lookup "steps" = some (.strList r.steps) ∧
    (recipeProps r).lookup "ingredients" = none :=
  ⟨rfl, rfl, rfl, rfl, rfl, rfl, rfl, rfl, rfl⟩

/-! ## Concrete rows for counterexamples and witnesses -/

/-- The end-to-end example row of the spec (double-quoted variant). -/
def sampleRow : RawRow :=
  { id := "1", name := "Tea", description := "hot drink",
    ingredients := "[\"water\", \"tea leaves\"]", minutes := "5",
    steps := "[\"boil water\", \"steep leaves\"]",
    nutrition := "[10.0, 0.0]" }

/-- The normalized record of `sampleRow`. -/
def sampleRecipe : Recipe :=
  { id := 1, name := "Tea", description := "hot drink",
    ingredients := ["water", "tea leaves"], minutes := 5,
    steps := ["boil water", "steep leaves"], nutrition := [10, 0] }

theorem decode_number_sample :
    decode_number_sequence "[10.0, 0.0]" = some [10, 0] := by
  simp [show "[10.0, 0.0]".data =
      ['[', '1', '0', '.', '0', ',', ' ', '0', '.', '0', ']'] from rfl,
    decode_number_sequence, trimMatches, dropEndWhile, isBracket, splitOnComma,
    parseParts, trimWs, parseFloat, applyExponent, mantissaVal, digitsVal]
  try norm_num

theorem normalizeRow_sampleRow :
    normalizeRow sampleRow = some sampleRecipe := by
  have h1 : parseI32 sampleRow.id = some 1 := by decide
  have h2 : parseI32 sampleRow.minutes = some 5 := by decide
  have h3 : decode_number_sequence sampleRow.nutrition = some [10, 0] :=
    decode_number_sample
  unfold normalizeRow
  rw [h1, h2, h3]
  rfl

/-- C1 (counterexample): for the successfully normalized sample record, the
stored Recipe node carries NO `ingredients` attribute even though the record
has a nonempty `ingredients` field, so the node's attributes are not "all
scalar and sequence fields of the record". -/
theorem recipe_node_missing_ingredients_cex :
    normalizeRow sampleRow = some sampleRecipe ∧
    sampleRecipe.ingredients = ["water", "tea leaves"] ∧
    (add_recipe_to_neo4j emptyGraph sampleRecipe).recipes =
      [recipeProps sampleRecipe] ∧
    (recipeProps sampleRecipe).lookup "ingredients" = none :=
  ⟨normalizeRow_sampleRow, rfl, rfl, rfl⟩

/-- A row whose `id` field is not numeric. -/
def badRow : RawRow :=
  { id := "abc", name := "Bad", description := "",
    ingredients := "[]", minutes := "5", steps := "[]",
    nutrition := "[1.0]" }

theorem normalizeRow_badRow : normalizeRow badRow = none := by
  have h1 : parseI32 badRow.id = none := by decide
  unfold normalizeRow
  rw [h1]

/-- C9: if a row fails to normalize (e.g. a non-numeric `id`), the run aborts
with the error, and the final store state is exactly the state reached after
the earlier rows: no store mutation is issued for the bad row or any later
row, and the bad row is not skipped-and-continued. -/
theorem run_aborts_on_malformed_row (st : GraphState) (pre post : List RawRow)
    (bad : RawRow) (hpre : ∀ row ∈ pre, (normalizeRow row).isSome)
    (hbad : normalizeRow bad = none) :
    runLoad st (pre ++ bad :: post) = ((runLoad st pre).1, false) := by
  induction pre generalizing st with
  | nil => simp [runLoad, hbad]
  | cons row pre ih =>
    obtain ⟨r, hr⟩ := Option.isSome_iff_exists.mp (hpre row (by simp))
    simp only [List.cons_append, runLoad, hr]
    exact ih (processRecipe st r) (fun x hx => hpre x (by simp [hx]))

/-- Witness for `run_aborts_on_malformed_row`: one good row, then the bad
row, then another good row; the run ends in the state after the first row
only, with the failure flag set. -/
theorem run_aborts_witness :
    runLoad emptyGraph [sampleRow, badRow, sampleRow] =
      ((runLoad emptyGraph [sampleRow]).1, false) :=
  run_aborts_on_malformed_row emptyGraph [sampleRow] [sampleRow] badRow
    (by intro row h
        obtain rfl := List.mem_singleton.mp h
        rw [normalizeRow_sampleRow]
        rfl)
    normalizeRow_badRow

/-- C10: for every row whose raw `ingredients` text decodes to a list
containing the empty string, loading the row creates an Ingredient node named
`""` and a `CONTAINS` edge from the recipe node to it: empty names reach the
store upserts unfiltered. -/
theorem empty_ingredient_loaded (row : RawRow) (r : Recipe)
    (h1 : normalizeRow row = some r)
    (h2 : "" ∈ decode_string_sequence row.ingredients) :
    "" ∈ (runLoad emptyGraph [row]).1.ingredients ∧
    (0, "") ∈ (runLoad emptyGraph [row]).1.edges := by
  have hing : r.ingredients = decode_string_sequence row.ingredients := by
    unfold normalizeRow at h1
    rcases hpi : parseI32 row.id with _ | i <;> rw [hpi] at h1
    · simp at h1
    · rcases hpm : parseI32 row.minutes with _ | m <;> rw [hpm] at h1
      · simp at h1
      · rcases hpn : decode_number_sequence row.nutrition with _ | nut <;>
          rw [hpn] at h1
        · simp at h1
        · obtain rfl := Option.some.inj h1
          rfl
  have hrun : runLoad emptyGraph [row] = (processRecipe emptyGraph r, true) := by
    simp only [runLoad, h1]
  rw [hrun]
  unfold processRecipe
  constructor
  · rw [attach_ingredients_mem]
    exact Or.inr (hing ▸ h2)
  · rw [attach_edges_mem]
    refine Or.inr ⟨?_, hing ▸ h2⟩
    have hr : (add_recipe_to_neo4j emptyGraph r).recipes = [recipeProps r] :=
      rfl
    rw [hr, matchRecipeIdxs_single]
    simp

/-- A row whose `ingredients` field is the literal text `[]`. -/
def emptyIngRow : RawRow :=
  { id := "2", name := "Mystery", description := "",
    ingredients := "[]", minutes := "0", steps := "[]",
    nutrition := "[1.0]" }

/-- The normalized record of `emptyIngRow`: its ingredient list is `[""]`. -/
def emptyIngRecipe : Recipe :=
  { id := 2, name := "Mystery", description := "", ingredients := [""],
    minutes := 0, steps := [""], nutrition := [1] }

theorem decode_number_single :
    decode_number_sequence "[1.0]" = some [1] := by
  simp [show "[1.0]".data = ['[', '1', '.', '0', ']'] from rfl,
    decode_number_sequence, trimMatches, dropEndWhile, isBracket, splitOnComma,
    parseParts, trimWs, parseFloat, applyExponent, mantissaVal, digitsVal]
  try norm_num

theorem normalizeRow_emptyIngRow :
    normalizeRow emptyIngRow = some emptyIngRecipe := by
  have h1 : parseI32 emptyIngRow.id = some 2 := by decide
  have h2 : parseI32 emptyIngRow.minutes = some 0 := by decide
  have h3 : decode_number_sequence emptyIngRow.nutrition = some [1] :=
    decode_number_single
  unfold normalizeRow
  rw [h1, h2, h3]
  rfl

/-- Witness for `empty_ingredient_loaded` at the row whose raw ingredients
text is `[]`. -/
theorem empty_ingredient_loaded_witness :
    "" ∈ (runLoad emptyGraph [emptyIngRow]).1.ingredients ∧
    (0, "") ∈ (runLoad emptyGraph [emptyIngRow]).1.edges :=
  empty_ingredient_loaded emptyIngRow emptyIngRecipe normalizeRow_emptyIngRow
    (by decide)

end RecipeParser
